import Mathlib

/-!
Shallow embedding of the nesfab language server (src/backend.rs, src/symbol.rs,
src/cfg.rs).  Syntax trees produced by the external tree-sitter parser are
modelled as rose trees carrying the node kind, named flag, field name, source
span and source text; the parser itself, the filesystem and path operations are
external collaborators and appear as explicit function parameters.  The
concurrent DashMap stores are modelled as association lists with
replace-on-insert, matching last-writer-wins whole-value replacement.
-/

namespace Nesfab

/-- A source position (tree-sitter `Point`): row and column. -/
structure Point where
  row : Nat
  col : Nat
  deriving DecidableEq, Repr

/-- An `lsp_types::Range`: start and end positions. -/
structure Range where
  startPos : Point
  endPos : Point
  deriving DecidableEq, Repr

/-- A node span: start and end points of a tree-sitter node. -/
structure Span where
  startRow : Nat
  startCol : Nat
  endRow : Nat
  endCol : Nat
  deriving DecidableEq, Repr

/-- A tree-sitter syntax node: kind, `is_named` flag, the field name it is
attached under in its parent (`child_by_field_name`), its span, its source
text (`utf8_text` over the node's byte range), and its children in order
(named and unnamed). -/
inductive Node where
  | mk (kind : String) (named : Bool) (fieldName : Option String) (span : Span)
       (text : String) (children : List Node)

def Node.kind : Node → String
  | .mk k _ _ _ _ _ => k

def Node.named : Node → Bool
  | .mk _ n _ _ _ _ => n

def Node.fieldName : Node → Option String
  | .mk _ _ f _ _ _ => f

def Node.span : Node → Span
  | .mk _ _ _ s _ _ => s

def Node.text : Node → String
  | .mk _ _ _ _ t _ => t

def Node.children : Node → List Node
  | .mk _ _ _ _ _ c => c

/-- `node.child_by_field_name(f)`: first child attached under field `f`. -/
def Node.childByFieldName (n : Node) (f : String) : Option Node :=
  n.children.find? (fun c => c.fieldName = some f)

/-- The range of a node converted to an LSP `Range`
(`Position::new(row, column)` on both ends). -/
def Node.lspRange (n : Node) : Range :=
  { startPos := { row := n.span.startRow, col := n.span.startCol }
    endPos := { row := n.span.endRow, col := n.span.endCol } }

/-- A node handle with its tree context: the chain of previous siblings
(nearest first, for `prev_sibling`) and the chain of ancestors (parent
first, for `parent`). -/
structure Loc where
  node : Node
  prevSibs : List Node
  ancestors : List Node

/-- `FunctionSymbol` (src/symbol.rs). -/
structure FunctionSymbol where
  range : Range
  description : String
  name : String
  signature : String
  comments : Option String
  deriving DecidableEq, Repr

/-- `VariableSymbol` (src/symbol.rs). -/
structure VariableSymbol where
  range : Range
  description : String
  name : String
  comments : Option String
  deriving DecidableEq, Repr

/-- A `Box<dyn Symbol>`: closed union of the two symbol kinds. -/
inductive Sym where
  | fn : FunctionSymbol → Sym
  | var : VariableSymbol → Sym
  deriving DecidableEq, Repr

def Sym.range : Sym → Range
  | .fn s => s.range
  | .var s => s.range

def Sym.description : Sym → String
  | .fn s => s.description
  | .var s => s.description

/-- `SymbolTable` (src/symbol.rs): name-keyed maps of functions and global
variables, modelled as association lists with replace-on-insert. -/
structure SymbolTable where
  functions : List (String × FunctionSymbol)
  global_variables : List (String × VariableSymbol)
  deriving DecidableEq, Repr

def SymbolTable.default : SymbolTable :=
  { functions := [], global_variables := [] }

/-- `HashMap::insert`: new binding replaces any previous binding of the key. -/
def insertS {α : Type} (m : List (String × α)) (k : String) (v : α) :
    List (String × α) :=
  (k, v) :: m.filter (fun p => p.1 ≠ k)

/-- `HashMap::get`. -/
def lookupS {α : Type} (m : List (String × α)) (k : String) : Option α :=
  (m.find? (fun p => p.1 = k)).map (·.2)

/-- `collect_sibling_comment_nodes` loop body (src/symbol.rs):
walk backward while each sibling is a comment and the gap between the
current pivot line and the sibling's end line is at most one. -/
def collectAux : Int → List Node → List Node
  | _, [] => []
  | pivotLine, n :: rest =>
    if n.kind = "comment" ∧ pivotLine - (n.span.endRow : Int) ≤ 1 then
      n :: collectAux (n.span.startRow : Int) rest
    else []

/-- `collect_sibling_comment_nodes` (src/symbol.rs): starts at the given
sibling with the pivot line set to that sibling's own start row. -/
def collect_sibling_comment_nodes (sibs : List Node) : List Node :=
  match sibs with
  | [] => []
  | n :: _ => collectAux (n.span.startRow : Int) sibs

/-- The `rfold` concatenation of collected comments: processed from the last
collected (topmost in the source) to the first, each followed by a newline. -/
def commentsText (comments : List Node) : String :=
  comments.reverse.foldl (fun acc c => acc ++ c.text ++ "\n") ""

/-- `FunctionSymbol::from_node` (src/symbol.rs). -/
def FunctionSymbol.from_node (l : Loc) : Except String FunctionSymbol :=
  match l.node.childByFieldName "signature" with
  | none => .error "failed to get signature node"
  | some sigNode =>
    match sigNode.childByFieldName "name" with
    | none => .error "failed to get node"
    | some nameNode =>
      let comments : Option String :=
        l.prevSibs.head?.map (fun _ =>
          commentsText (collect_sibling_comment_nodes l.prevSibs))
      let signature := sigNode.text
      let description := comments.getD "" ++ signature
      .ok { name := nameNode.text
            range := l.node.lspRange
            description := description
            signature := signature
            comments := comments }

/-- `VariableSymbol::from_node` (src/symbol.rs). -/
def VariableSymbol.from_node (l : Loc) : Except String VariableSymbol :=
  match l.node.childByFieldName "name" with
  | none => .error "failed to get node"
  | some nameNode =>
    let comments : Option String :=
      l.prevSibs.head?.map (fun _ =>
        commentsText (collect_sibling_comment_nodes l.prevSibs))
    let description := comments.getD "" ++ l.node.text
    .ok { name := nameNode.text
          range := l.node.lspRange
          description := description
          comments := comments }

mutual
/-- Pre-order enumeration of the nodes of a tree with their contexts; the
cursor loop of `traverse_tree` visits exactly this sequence: the node, then
its children left to right (each recursively), then its following siblings. -/
def preorder (anc : List Node) (prevs : List Node) : Node → List Loc
  | .mk k nm f sp tx cs =>
    ⟨.mk k nm f sp tx cs, prevs, anc⟩ ::
      preorderChildren (Node.mk k nm f sp tx cs :: anc) [] cs

def preorderChildren (anc : List Node) (prevs : List Node) :
    List Node → List Loc
  | [] => []
  | c :: rest => preorder anc prevs c ++ preorderChildren anc (c :: prevs) rest
end

/-- One step of `traverse_tree` (src/symbol.rs): the match on the node kind. -/
def processLoc (st : SymbolTable) (l : Loc) : Except String SymbolTable :=
  if l.node.named then
    match l.node.kind with
    | "function_definition" | "asm_function_definition" =>
      (FunctionSymbol.from_node l).map (fun s =>
        { st with functions := insertS st.functions s.name s })
    | "variable_definition" =>
      match l.ancestors.head? with
      | some parent =>
        if parent.kind = "module" ∨ parent.kind = "vars_definition" then
          (VariableSymbol.from_node l).map (fun s =>
            { st with global_variables := insertS st.global_variables s.name s })
        else .ok st
      | none => .ok st
    | _ => .ok st
  else .ok st

/-- `traverse_tree` (src/symbol.rs): fold the per-node step over the
pre-order traversal starting at the root, aborting on the first error. -/
def traverse_tree (root : Node) : Except String SymbolTable :=
  (preorder [] [] root).foldlM processLoc SymbolTable.default

/-- `SymbolTable::find_symbol` (src/symbol.rs): classify the reference by its
parent kind (and grandparent kind otherwise); a call-site consults only the
function table, a reference whose grandparent is a function definition header
consults only the function table, anything else consults only the
global-variable table. -/
def SymbolTable.find_symbol (st : SymbolTable) (l : Loc) (name : String) :
    Except String Sym :=
  match l.ancestors with
  | [] => .error "faield to get parent"
  | parent :: rest =>
    if parent.kind = "call" then
      match lookupS st.functions name with
      | some s => .ok (.fn s)
      | none => .error "failed to find symbol: {name}"
    else
      match rest with
      | [] => .error "failed to get parent"
      | gp :: _ =>
        if gp.kind = "function_definition" ∨ gp.kind = "asm_function_definition" then
          match lookupS st.functions name with
          | some s => .ok (.fn s)
          | none => .error "failed to find symbol: {name}"
        else
          match lookupS st.global_variables name with
          | some s => .ok (.var s)
          | none => .error "failed to find symbol: {name}"

/-- External collaborators: the tree-sitter parser, the filesystem and path
operations.  Each field models one external primitive used by the code. -/
structure Ext where
  parse : String → Option Node
  readToString : String → Option String
  walkCfgFiles : String → List String
  parentDir : String → Option String
  readLines : String → Option (List String)
  canonicalize : String → Option String
  pathJoin : String → String → String
  extension : String → Option String
  nesfabPath : String

/-- `SymbolTable::from_source` (src/symbol.rs): parse, then extract. -/
def SymbolTable.from_source (ext : Ext) (source : String) :
    Except String SymbolTable :=
  match ext.parse source with
  | none => .error "failed to parse source code"
  | some tree => traverse_tree tree

/-- Whitespace as recognized by `str::trim` (the characters occurring in
config files). -/
def isWS (c : Char) : Bool :=
  c = ' ' ∨ c = '\t' ∨ c = '\n' ∨ c = '\r'

/-- `str::trim`: strip leading and trailing whitespace. -/
def trimChars (s : List Char) : List Char :=
  ((s.dropWhile isWS).reverse.dropWhile isWS).reverse

/-- `str::split('=')`: the substrings between occurrences of `=`; `n`
separators yield `n + 1` parts, empty parts included. -/
def splitEqChar : List Char → List (List Char)
  | [] => [[]]
  | c :: rest =>
    let r := splitEqChar rest
    if c = '=' then [] :: r
    else
      match r with
      | [] => [[c]]
      | h :: t => (c :: h) :: t

/-- The per-line `filter_map` closure of `extract_inputs` (src/cfg.rs): a line
yields a path when the raw line starts with `input` and splitting on `=`
(both parts trimmed) gives exactly two parts; the second part is the path. -/
def extract_input_line (line : String) : Option String :=
  if "input".toList.isPrefixOf line.toList then
    match (splitEqChar line.toList).map trimChars with
    | [_, p] => some ⟨p⟩
    | _ => none
  else none

/-- `extract_inputs` (src/cfg.rs): read the file line by line and keep the
lines that yield a path; `none` models the file failing to open. -/
def extract_inputs (ext : Ext) (path : String) : Option (List String) :=
  (ext.readLines path).map (fun lines => lines.filterMap extract_input_line)

/-- Reference resolution of `collect_cfg_map` (src/cfg.rs): canonicalize
relative to the config directory, then relative to the external base
directory; the first existing candidate wins. -/
def resolveInput (ext : Ext) (cfgDir : String) (path : String) : Option String :=
  match ext.canonicalize (ext.pathJoin cfgDir path) with
  | some p => some p
  | none => ext.canonicalize (ext.pathJoin ext.nesfabPath path)

/-- `collect_cfg_map` (src/cfg.rs): enumerate config files under the given
roots, extract their `input` lines, resolve and extension-filter the
references, and key the result by the config file's directory (later config
files in the same directory overwrite earlier ones, as the `HashMap` collect
does). -/
def collect_cfg_map (ext : Ext) (files : List String) :
    List (String × List String) :=
  let cfg_file_paths := (files.flatMap ext.walkCfgFiles).dedup
  let entries := cfg_file_paths.filterMap (fun cfgFile =>
    (ext.parentDir cfgFile).bind (fun cfgDir =>
      (extract_inputs ext cfgFile).map (fun paths => (cfgDir, paths))))
  let resolved := entries.map (fun pr =>
    (pr.1, ((pr.2.filterMap (resolveInput ext pr.1)).filter
      (fun p => ext.extension p = some "fab")).dedup))
  resolved.foldl (fun m pr => insertS m pr.1 pr.2) []

/-- `Backend` (src/backend.rs): the four keyed stores and the workspace
roots. -/
structure Backend where
  source_map : List (String × String)
  tree_map : List (String × Node)
  symbol_map : List (String × SymbolTable)
  cfg_map : List (String × List String)
  workspace_dirs : List String

/-- `Backend::get_dependencies` (src/backend.rs): union of the values of the
config entries whose value set contains the file. -/
def Backend.get_dependencies (b : Backend) (path : String) : List String :=
  ((b.cfg_map.filter (fun e => path ∈ e.2)).flatMap (fun e => e.2)).dedup

/-- `Backend::on_change` (src/backend.rs): insert the new text, then parse,
then insert the new tree, then extract, then insert the new table; a failure
aborts the remaining inserts and is returned. -/
def Backend.on_change (ext : Ext) (b : Backend) (path text : String) :
    Backend × Except String Unit :=
  let b1 := { b with source_map := insertS b.source_map path text }
  match ext.parse text with
  | none => (b1, .error "failed to parse source")
  | some tree =>
    let b2 := { b1 with tree_map := insertS b1.tree_map path tree }
    match traverse_tree tree with
    | .error e => (b2, .error e)
    | .ok st =>
      ({ b2 with symbol_map := insertS b2.symbol_map path st }, .ok ())

/-- The `cfg_files` set computed by `Backend::on_change_workspace_folders`
(src/backend.rs): (tracked config directories minus removed) union added,
restricted to directories not already tracked. -/
def Backend.cfg_files (b : Backend) (added removed : List String) :
    List String :=
  ((((b.cfg_map.map (fun e => e.1)).dedup.filter (fun p => p ∉ removed))
      ++ added).dedup).filter (fun p => (lookupS b.cfg_map p).isNone)

/-- `Backend::on_change_workspace_folders` (src/backend.rs): rebuild the
config map wholesale (clear, then reinsert the fresh scan), then read, parse
and extract every referenced file lacking a cached symbol table, merging the
results additively into the symbol store. -/
def Backend.on_change_workspace_folders (ext : Ext) (b : Backend)
    (added removed : List String) : Backend :=
  let m := collect_cfg_map ext (b.cfg_files added removed)
  let b1 := { b with cfg_map := m }
  let files := ((m.flatMap (fun e => e.2)).filter
    (fun f => (lookupS b1.symbol_map f).isNone)).dedup
  let newSyms := files.filterMap (fun f =>
    (ext.readToString f).bind (fun src =>
      (SymbolTable.from_source ext src).toOption.map (fun st => (f, st))))
  { b1 with symbol_map := newSyms.foldl (fun m pr => insertS m pr.1 pr.2) b1.symbol_map }

/-- A completion candidate: label, kind and optional documentation string. -/
structure CompletionItem where
  label : String
  kind : String
  documentation : Option String
  deriving DecidableEq, Repr

/-- The table snapshot taken by `Backend::completion` (src/backend.rs). -/
def Backend.dependency_symbols (b : Backend) (path : String) :
    List (String × SymbolTable) :=
  (b.get_dependencies path).filterMap (fun f =>
    (lookupS b.symbol_map f).map (fun st => (f, st)))

/-- `Backend::completion` (src/backend.rs): for each dependency table, one
item per global variable (documentation = description) and one per function
(documentation only when comments exist: signature, separator, comments). -/
def Backend.completion (b : Backend) (path : String) : List CompletionItem :=
  (b.dependency_symbols path).flatMap (fun pr =>
    pr.2.global_variables.map (fun nv =>
      { label := nv.1, kind := "variable",
        documentation := some nv.2.description }) ++
    pr.2.functions.map (fun nf =>
      { label := nf.1, kind := "function",
        documentation := nf.2.comments.map (fun c =>
          nf.2.signature ++ "\n  -------\n  " ++ c) }))

/-- Whether a node span contains a point (`descendant_for_point_range` with a
single point, inclusive bounds). -/
def Span.containsPoint (s : Span) (pt : Point) : Bool :=
  (decide (s.startRow < pt.row) ||
    (decide (s.startRow = pt.row) && decide (s.startCol ≤ pt.col))) &&
  (decide (pt.row < s.endRow) ||
    (decide (pt.row = s.endRow) && decide (pt.col ≤ s.endCol)))

mutual
/-- Descend to the smallest node containing the point: enter the first child
containing it, or stop at the current node. -/
def descend (anc : List Node) (prevs : List Node) (pt : Point) : Node → Loc
  | .mk k nm f sp tx cs =>
    match descendChildren (Node.mk k nm f sp tx cs :: anc) pt [] cs with
    | some l => l
    | none => ⟨.mk k nm f sp tx cs, prevs, anc⟩

def descendChildren (anc : List Node) (pt : Point) (prevs : List Node) :
    List Node → Option Loc
  | [] => none
  | c :: rest =>
    if c.span.containsPoint pt then some (descend anc prevs pt c)
    else descendChildren anc pt (c :: prevs) rest
end

/-- `root_node().descendant_for_point_range(point, point)`. -/
def Node.descendant_for_point (root : Node) (pt : Point) : Option Loc :=
  if root.span.containsPoint pt then some (descend [] [] pt root) else none

/-- `Backend::find_symbol` (src/backend.rs): require cached source and tree,
locate the node at the point; on an identifier, look the name up in the
file's own table, then in every other cached table, first match wins. -/
def Backend.find_symbol (b : Backend) (path : String) (pt : Point) :
    Except String (Option (String × Sym)) :=
  match lookupS b.source_map path with
  | none => .error ("failed to get source file: " ++ path)
  | some _src =>
    match lookupS b.tree_map path with
    | none => .error ("failed to get tree file: " ++ path)
    | some tree =>
      match tree.descendant_for_point pt with
      | none => .error ("failed to get node file: " ++ path)
      | some l =>
        if l.node.kind = "identifier" then
          let name := l.node.text
          let own : Option (String × Sym) :=
            (lookupS b.symbol_map path).bind (fun st =>
              (st.find_symbol l name).toOption.map (fun s => (path, s)))
          let other : Option (String × Sym) :=
            (b.symbol_map.filter (fun e => e.1 ≠ path)).findSome? (fun e =>
              (e.2.find_symbol l name).toOption.map (fun s => (e.1, s)))
          .ok (own <|> other)
        else .ok none

/-- `Backend::get_relative_path` (src/backend.rs): shorten a path against the
first workspace root that is a prefix of it. -/
def Backend.get_relative_path (b : Backend) (path : String) : Option String :=
  b.workspace_dirs.findSome? (fun d =>
    if d.isPrefixOf path then some (path.drop d.length) else none)

/-- `Backend::hover` (src/backend.rs): on a match, the defining file's
display path and the symbol's rendered description; `find_symbol` errors
propagate. -/
def Backend.hover (b : Backend) (path : String) (pt : Point) :
    Except String (Option (String × String)) :=
  match b.find_symbol path pt with
  | .ok (some pr) =>
    .ok (some ((b.get_relative_path pr.1).getD pr.1, pr.2.description))
  | .ok none => .ok none
  | .error e => .error e

/-- `Backend::goto_definition` (src/backend.rs): on a match, the defining
file's path and the symbol's range; `find_symbol` errors propagate. -/
def Backend.goto_definition (b : Backend) (path : String) (pt : Point) :
    Except String (Option (String × Range)) :=
  match b.find_symbol path pt with
  | .ok (some pr) => .ok (some (pr.1, pr.2.range))
  | .ok none => .ok none
  | .error e => .error e


/-! ### Basic facts about the store model -/

theorem lookupS_insertS_self {α : Type} (m : List (String × α)) (k : String)
    (v : α) : lookupS (insertS m k v) k = some v := by
  simp [lookupS, insertS]

theorem find?_filter_imp {α : Type} (l : List α) (p q : α → Bool)
    (h : ∀ x, p x = true → q x = true) :
    (l.filter q).find? p = l.find? p := by
  induction l with
  | nil => rfl
  | cons hd tl ih =>
    cases hq : q hd with
    | true =>
      rw [List.filter_cons_of_pos hq]
      cases hp : p hd with
      | true => simp [List.find?, hp]
      | false => simp [List.find?, hp, ih]
    | false =>
      have hp : p hd = false := by
        cases hph : p hd with
        | true => rw [h hd hph] at hq; cases hq
        | false => rfl
      rw [List.filter_cons_of_neg (by simp [hq])]
      simp [List.find?, hp, ih]

theorem lookupS_insertS_ne {α : Type} (m : List (String × α)) (k k' : String)
    (v : α) (h : k' ≠ k) : lookupS (insertS m k v) k' = lookupS m k' := by
  have hkk : (decide (k = k')) = false := by
    simp only [decide_eq_false_iff_not]
    exact fun h' => h h'.symm
  simp only [lookupS, insertS, List.find?, hkk]
  rw [find?_filter_imp]
  intro x hx
  simp only [decide_eq_true_eq] at hx
  simp only [decide_eq_true_eq, ne_eq]
  rw [hx]
  exact h

/-- A stub instantiation of the external collaborators: parsing always fails
and the filesystem is empty. -/
def extStub : Ext :=
  { parse := fun _ => none
    readToString := fun _ => none
    walkCfgFiles := fun _ => []
    parentDir := fun _ => none
    readLines := fun _ => none
    canonicalize := fun _ => none
    pathJoin := fun a b => a ++ "/" ++ b
    extension := fun _ => none
    nesfabPath := "" }

def emptyBackend : Backend := ⟨[], [], [], [], []⟩

/-- If the source store has no entry for the path, `find_symbol` returns the
missing-source error. -/
theorem find_symbol_no_source (b : Backend) (p : String) (pt : Point)
    (h : lookupS b.source_map p = none) :
    b.find_symbol p pt = .error ("failed to get source file: " ++ p) := by
  unfold Backend.find_symbol
  rw [h]

/-! ### C5: the config-line filter -/

/-- The line filter as the claim states it: exactly one `=`, trimmed left
side equal to the key `input`, trimmed right side taken as the path.
(Stated from the spec's words, for comparison with `extract_input_line`.) -/
def claimedInputLine (line : String) : Option String :=
  match (splitEqChar line.toList).map trimChars with
  | [l, r] => if l = "input".toList then some ⟨r⟩ else none
  | _ => none

/-- C5 counterexample: `inputs = foo.fab` starts with `input` but its trimmed
left side is `inputs`; the code yields `foo.fab`, the claimed filter yields
nothing.  Conversely ` input = x.fab` has trimmed left side `input` but the
code yields nothing because the raw line does not start with `input`. -/
theorem extract_input_line_untrimmed_key :
    extract_input_line "inputs = foo.fab" = some "foo.fab" ∧
    claimedInputLine "inputs = foo.fab" = none ∧
    extract_input_line " input = x.fab" = none ∧
    claimedInputLine " input = x.fab" = some "x.fab" := by
  refine ⟨by decide, by decide, by decide, by decide⟩

/-- C5 amended: a line yields a raw path reference iff the raw
(untrimmed) line starts with the literal `input` and contains exactly one
`=`; the trimmed right side is the path. -/
theorem extract_input_line_spec (line p : String) :
    extract_input_line line = some p ↔
      ("input".toList.isPrefixOf line.toList ∧
        ∃ a b, splitEqChar line.toList = [a, b] ∧ p = ⟨trimChars b⟩) := by
  unfold extract_input_line
  cases hpre : "input".toList.isPrefixOf line.toList with
  | false => simp [hpre]
  | true =>
    simp only [hpre, if_true, true_and]
    rcases hs : splitEqChar line.toList with _ | ⟨a, _ | ⟨b, _ | ⟨c, t⟩⟩⟩ <;>
      simp only [hs, List.map]
    · simp
    · simp
    · constructor
      · intro hh
        exact ⟨a, b, rfl, ((Option.some.injEq _ _).mp hh).symm⟩
      · rintro ⟨a', b', hab, hp⟩
        injection hab with h1 h2
        injection h2 with h2 h3
        subst h1; subst h2
        rw [hp]
    · simp

/-! ### C3: resolution context for other references -/

def identX : Node := .mk "identifier" true none ⟨2,4,2,5⟩ "x" []
def parentBin : Node := .mk "binary_expression" true none ⟨2,0,2,9⟩ "y + x" []
def gpModule : Node := .mk "module" true none ⟨0,0,3,0⟩ "" []
def locX : Loc := ⟨identX, [], [parentBin, gpModule]⟩

def fsymX : FunctionSymbol :=
  { range := ⟨⟨0,0⟩,⟨1,0⟩⟩, description := "fn x()", name := "x",
    signature := "fn x()", comments := none }

def stX : SymbolTable := ⟨[("x", fsymX)], []⟩

/-- C3 counterexample: an identifier reference that is neither a call-site
nor inside a definition header, whose name is present in the function table;
the claim says the function table is consulted first, but resolution fails
because only the global-variable table is consulted. -/
theorem find_symbol_function_table_not_consulted :
    lookupS stX.functions "x" = some fsymX ∧
    stX.find_symbol locX "x" = .error "failed to find symbol: {name}" :=
  ⟨rfl, rfl⟩

/-- C3 amended: a reference that is neither a call-site nor inside a
function/asm-function definition header resolves only against the
global-variable table; the function table is never consulted for it. -/
theorem find_symbol_other_context_global_only
    (st : SymbolTable) (l : Loc) (name : String) (parent gp : Node)
    (rest : List Node)
    (hanc : l.ancestors = parent :: gp :: rest)
    (hpar : parent.kind ≠ "call")
    (hgp1 : gp.kind ≠ "function_definition")
    (hgp2 : gp.kind ≠ "asm_function_definition") :
    ∀ s, st.find_symbol l name = .ok s ↔
      ∃ v, lookupS st.global_variables name = some v ∧ s = Sym.var v := by
  intro s
  unfold SymbolTable.find_symbol
  rw [hanc]
  simp only [hpar, if_false, if_neg, hgp1, hgp2, or_self]
  cases h : lookupS st.global_variables name with
  | none => simp [h, hpar, hgp1, hgp2]
  | some v => simp [h, hpar, hgp1, hgp2, eq_comm]

def vsymG : VariableSymbol :=
  { range := ⟨⟨0,0⟩,⟨0,8⟩⟩, description := "SS g = 0", name := "g",
    comments := none }

def stG : SymbolTable := ⟨[], [("g", vsymG)]⟩
def locG : Loc := ⟨.mk "identifier" true none ⟨2,4,2,5⟩ "g" [], [],
  [parentBin, gpModule]⟩

theorem find_symbol_other_context_global_only_witness :
    stG.find_symbol locG "g" = .ok (.var vsymG) ↔
      ∃ v, lookupS stG.global_variables "g" = some v ∧ Sym.var vsymG = Sym.var v :=
  find_symbol_other_context_global_only stG locG "g" parentBin gpModule []
    rfl (by decide) (by decide) (by decide) (Sym.var vsymG)

/-! ### C2: queries on never-indexed paths -/

/-- C2 counterexample: `goto_definition` on a path absent from every store
returns the missing-source error, not the empty "no result" outcome. -/
theorem goto_definition_unindexed_not_no_result :
    Backend.goto_definition emptyBackend "/game/main.fab" ⟨0,0⟩ =
      .error "failed to get source file: /game/main.fab" := rfl

/-- C2 amended: `goto_definition` on a path absent from the text store
returns the missing-source error (surfaced to the caller as an error), never
the empty "no result" outcome. -/
theorem goto_definition_unindexed_error (b : Backend) (p : String) (pt : Point)
    (h : lookupS b.source_map p = none) :
    Backend.goto_definition b p pt =
      .error ("failed to get source file: " ++ p) := by
  unfold Backend.goto_definition
  rw [find_symbol_no_source b p pt h]

theorem goto_definition_unindexed_error_witness :
    Backend.goto_definition emptyBackend "/lib/util.fab" ⟨3,7⟩ =
      .error "failed to get source file: /lib/util.fab" :=
  goto_definition_unindexed_error emptyBackend "/lib/util.fab" ⟨3,7⟩ rfl

/-! ### C1: update_file failure retention -/

def bOld : Backend := ⟨[("main.fab", "old text")], [], [], [], []⟩

/-- C1 counterexample: when parsing fails, the cached text for the path has
already been replaced by the new text, so not all three stores retain their
prior values. -/
theorem update_file_overwrites_text_on_parse_failure :
    (Backend.on_change extStub bOld "main.fab" "new text").2 =
      .error "failed to parse source" ∧
    lookupS (Backend.on_change extStub bOld "main.fab" "new text").1.source_map
      "main.fab" = some "new text" ∧
    lookupS bOld.source_map "main.fab" = some "old text" :=
  ⟨rfl, rfl, rfl⟩

/-- C1 amended: `update_file` replaces the cached text unconditionally before
parsing; on a parse failure the tree and symbol stores retain their prior
values and the failure is returned; on an extraction failure the tree store
already holds the new tree and only the symbol store retains its prior value,
with the failure returned. -/
theorem update_file_failure_retention (ext : Ext) (b : Backend) (p t : String) :
    lookupS (Backend.on_change ext b p t).1.source_map p = some t ∧
    (ext.parse t = none →
      (Backend.on_change ext b p t).2 = .error "failed to parse source" ∧
      (Backend.on_change ext b p t).1.tree_map = b.tree_map ∧
      (Backend.on_change ext b p t).1.symbol_map = b.symbol_map) ∧
    (∀ tree e, ext.parse t = some tree → traverse_tree tree = .error e →
      (Backend.on_change ext b p t).2 = .error e ∧
      lookupS (Backend.on_change ext b p t).1.tree_map p = some tree ∧
      (Backend.on_change ext b p t).1.symbol_map = b.symbol_map) := by
  refine ⟨?_, ?_, ?_⟩
  · cases hp : ext.parse t with
    | none => simp [Backend.on_change, hp, lookupS_insertS_self]
    | some tree =>
      cases ht : traverse_tree tree <;>
        simp [Backend.on_change, hp, ht, lookupS_insertS_self]
  · intro hp
    simp [Backend.on_change, hp]
  · intro tree e hp ht
    simp [Backend.on_change, hp, ht, lookupS_insertS_self]

theorem update_file_failure_retention_witness :
    (Backend.on_change extStub bOld "main.fab" "txt").2 =
      .error "failed to parse source" ∧
    (Backend.on_change extStub bOld "main.fab" "txt").1.tree_map =
      bOld.tree_map ∧
    (Backend.on_change extStub bOld "main.fab" "txt").1.symbol_map =
      bOld.symbol_map :=
  (update_file_failure_retention extStub bOld "main.fab" "txt").2.1 rfl

/-! ### C8: idempotence of update_file -/

/-- C8: applying `update_file` twice with identical text yields an identical
symbol-table entry for the path after the second call. -/
theorem update_file_idempotent (ext : Ext) (b : Backend) (p t : String) :
    lookupS (Backend.on_change ext
      (Backend.on_change ext b p t).1 p t).1.symbol_map p =
    lookupS (Backend.on_change ext b p t).1.symbol_map p := by
  cases hp : ext.parse t with
  | none => simp [Backend.on_change, hp]
  | some tree =>
    cases ht : traverse_tree tree <;>
      simp [Backend.on_change, hp, ht, lookupS_insertS_self]

/-! ### C4: refresh_workspace and already-tracked directories -/

def bTracked : Backend := ⟨[], [], [], [("proj", ["proj/main.fab"])], []⟩

/-- C4 counterexample: a tracked config directory, not removed, loses its
cached dependency entry across a refresh with no added roots, because the
store is replaced wholesale by the fresh scan of not-yet-tracked roots. -/
theorem refresh_workspace_drops_tracked_entry :
    lookupS bTracked.cfg_map "proj" = some ["proj/main.fab"] ∧
    lookupS (Backend.on_change_workspace_folders extStub bTracked [] []).cfg_map
      "proj" = none :=
  ⟨rfl, rfl⟩

/-- C4 amended: an already-tracked config directory is excluded from the
rescan set, but the dependency store is replaced wholesale by the fresh scan
of that set, so the tracked directory's entry afterwards is whatever the
fresh scan produced for it (nothing, unless a newly scanned root reaches that
directory) — its prior cached entry is not kept. -/
theorem refresh_workspace_tracked_dirs (ext : Ext) (b : Backend)
    (added removed : List String) (d : String)
    (h : (lookupS b.cfg_map d).isSome) :
    d ∉ b.cfg_files added removed ∧
    lookupS (Backend.on_change_workspace_folders ext b added removed).cfg_map d =
      lookupS (collect_cfg_map ext (b.cfg_files added removed)) d := by
  constructor
  · intro hmem
    rw [Backend.cfg_files, List.mem_filter] at hmem
    have h2 := hmem.2
    simp only [decide_eq_true_eq] at h2
    rw [Option.isNone_iff_eq_none] at h2
    rw [h2] at h
    cases h
  · rfl

theorem refresh_workspace_tracked_dirs_witness :
    "proj" ∉ bTracked.cfg_files [] [] ∧
    lookupS (Backend.on_change_workspace_folders extStub bTracked [] []).cfg_map
      "proj" = lookupS (collect_cfg_map extStub (bTracked.cfg_files [] [])) "proj" :=
  refresh_workspace_tracked_dirs extStub bTracked [] [] "proj" rfl

/-! ### C6: completion candidates and their documentation -/

def fnNoComment : FunctionSymbol :=
  { range := ⟨⟨0,0⟩,⟨1,0⟩⟩, description := "fn f(a)", name := "f",
    signature := "fn f(a)", comments := none }

def bC6 : Backend :=
  ⟨[], [], [("a.fab", ⟨[("f", fnNoComment)], []⟩)], [("d", ["a.fab"])], []⟩

/-- C6 counterexample: a function without leading comments is cached with a
rendered description, yet its completion candidate carries no documentation
at all. -/
theorem completion_function_without_comments_no_doc :
    lookupS bC6.symbol_map "a.fab" = some ⟨[("f", fnNoComment)], []⟩ ∧
    fnNoComment.description = "fn f(a)" ∧
    Backend.completion bC6 "a.fab" =
      [{ label := "f", kind := "function", documentation := none }] :=
  ⟨rfl, rfl, rfl⟩

/-- C6 amended: `completion(path)` emits one candidate per global variable
and per function of each dependency's cached table; a global-variable
candidate's documentation is the symbol's rendered description, while a
function candidate carries documentation only when the function has leading
comments, and that text is the signature followed by a separator and the
comments, not the rendered description. -/
theorem completion_items_spec (b : Backend) (p : String) :
    ((b.completion p).length =
      ((b.dependency_symbols p).map
        (fun e => e.2.global_variables.length + e.2.functions.length)).sum) ∧
    ∀ it, it ∈ b.completion p ↔
      ∃ e ∈ b.dependency_symbols p,
        (∃ nv ∈ e.2.global_variables,
          it = { label := nv.1, kind := "variable",
                 documentation := some nv.2.description }) ∨
        (∃ nf ∈ e.2.functions,
          it = { label := nf.1, kind := "function",
                 documentation := nf.2.comments.map (fun c =>
                   nf.2.signature ++ "\n  -------\n  " ++ c) }) := by
  constructor
  · rw [Backend.completion, List.length_flatMap]
    congr 1
    apply List.map_congr_left
    intro e he
    simp [Function.comp, List.length_append]
  · intro it
    rw [Backend.completion, List.mem_flatMap]
    constructor
    · rintro ⟨e, he, hit⟩
      rw [List.mem_append] at hit
      refine ⟨e, he, ?_⟩
      rcases hit with h | h
      · left
        rw [List.mem_map] at h
        obtain ⟨nv, hnv, rfl⟩ := h
        exact ⟨nv, hnv, rfl⟩
      · right
        rw [List.mem_map] at h
        obtain ⟨nf, hnf, rfl⟩ := h
        exact ⟨nf, hnf, rfl⟩
    · rintro ⟨e, he, h | h⟩
      · obtain ⟨nv, hnv, rfl⟩ := h
        exact ⟨e, he, List.mem_append.mpr (Or.inl (List.mem_map.mpr ⟨nv, hnv, rfl⟩))⟩
      · obtain ⟨nf, hnf, rfl⟩ := h
        exact ⟨e, he, List.mem_append.mpr (Or.inr (List.mem_map.mpr ⟨nf, hnf, rfl⟩))⟩

/-! ### C10: refresh_workspace writes only the symbol store -/

/-- C10: bulk indexing writes only the config and symbol stores — the text
and tree stores are untouched — so a file indexed solely through it has
symbols visible to completion, while `find_symbol` (hence hover and
goto-definition) fails on it for want of cached text and tree. -/
theorem refresh_workspace_symbol_only (ext : Ext) (b : Backend)
    (added removed : List String) (q p n : String) (pt : Point)
    (st : SymbolTable) (s : FunctionSymbol) :
    ((Backend.on_change_workspace_folders ext b added removed).source_map =
        b.source_map ∧
      (Backend.on_change_workspace_folders ext b added removed).tree_map =
        b.tree_map) ∧
    (lookupS b.source_map p = none →
      b.find_symbol p pt = .error ("failed to get source file: " ++ p) ∧
      b.goto_definition p pt = .error ("failed to get source file: " ++ p) ∧
      b.hover p pt = .error ("failed to get source file: " ++ p)) ∧
    (p ∈ b.get_dependencies q → lookupS b.symbol_map p = some st →
      (n, s) ∈ st.functions →
      ({ label := n, kind := "function",
         documentation := s.comments.map (fun c =>
           s.signature ++ "\n  -------\n  " ++ c) } : CompletionItem) ∈
        b.completion q) := by
  refine ⟨⟨?_, ?_⟩, ?_, ?_⟩
  · simp only [Backend.on_change_workspace_folders]
  · simp only [Backend.on_change_workspace_folders]
  · intro h
    have hf := find_symbol_no_source b p pt h
    refine ⟨hf, ?_, ?_⟩
    · unfold Backend.goto_definition
      rw [hf]
    · unfold Backend.hover
      rw [hf]
  · intro hdep hlook hmem
    rw [Backend.completion, List.mem_flatMap]
    refine ⟨(p, st), ?_, ?_⟩
    · rw [Backend.dependency_symbols, List.mem_filterMap]
      exact ⟨p, hdep, by rw [hlook]; rfl⟩
    · exact List.mem_append.mpr (Or.inr (List.mem_map.mpr ⟨(n, s), hmem, rfl⟩))

theorem refresh_workspace_symbol_only_witness :
    ((Backend.on_change_workspace_folders extStub bC6 [] []).source_map =
        bC6.source_map ∧
      (Backend.on_change_workspace_folders extStub bC6 [] []).tree_map =
        bC6.tree_map) ∧
    (Backend.find_symbol bC6 "a.fab" ⟨0,0⟩ =
        .error ("failed to get source file: " ++ "a.fab") ∧
      Backend.goto_definition bC6 "a.fab" ⟨0,0⟩ =
        .error ("failed to get source file: " ++ "a.fab") ∧
      Backend.hover bC6 "a.fab" ⟨0,0⟩ =
        .error ("failed to get source file: " ++ "a.fab")) ∧
    ({ label := "f", kind := "function",
       documentation := fnNoComment.comments.map (fun c =>
         fnNoComment.signature ++ "\n  -------\n  " ++ c) } : CompletionItem) ∈
      Backend.completion bC6 "a.fab" := by
  have T := refresh_workspace_symbol_only extStub bC6 [] [] "a.fab" "a.fab" "f"
    ⟨0,0⟩ ⟨[("f", fnNoComment)], []⟩ fnNoComment
  exact ⟨T.1, T.2.1 rfl, T.2.2 (by decide) rfl (by decide)⟩

/-! ### C7: leading comment blocks in descriptions -/

/-- The pivot line after the comment scan has consumed a whole chain. -/
def lastStart (pivot : Int) (chain : List Node) : Int :=
  match chain.getLast? with
  | none => pivot
  | some c => (c.span.startRow : Int)

theorem lastStart_cons (pivot : Int) (c : Node) (cs : List Node) :
    lastStart pivot (c :: cs) = lastStart (c.span.startRow : Int) cs := by
  cases cs with
  | nil => rfl
  | cons d ds =>
    unfold lastStart
    rw [List.getLast?_cons_cons]
    cases h : (d :: ds).getLast? with
    | none => simp at h
    | some cl => rfl

theorem lastStart_eq_getLast (pivot : Int) (chain : List Node) (cl : Node)
    (h : chain.getLast? = some cl) :
    lastStart pivot chain = (cl.span.startRow : Int) := by
  unfold lastStart
  rw [h]

/-- The comment scan consumes exactly a chain of comments each within one
line of the previous pivot, and stops at the first sibling that is not such
a comment. -/
theorem collectAux_chain (chain : List Node) :
    ∀ (pivot : Int) (rest : List Node),
    (∀ c ∈ chain, c.kind = "comment") →
    (∀ c, chain.head? = some c → pivot - (c.span.endRow : Int) ≤ 1) →
    chain.Chain' (fun a b => (a.span.startRow : Int) - (b.span.endRow : Int) ≤ 1) →
    (∀ r, rest.head? = some r → r.kind = "comment" →
      ¬(lastStart pivot chain - (r.span.endRow : Int) ≤ 1)) →
    collectAux pivot (chain ++ rest) = chain := by
  induction chain with
  | nil =>
    intro pivot rest _ _ _ hstop
    cases rest with
    | nil => rfl
    | cons r t =>
      show collectAux pivot (r :: t) = []
      unfold collectAux
      rw [if_neg]
      rintro ⟨h1, h2⟩
      exact hstop r rfl h1 (by simpa [lastStart] using h2)
  | cons c cs ih =>
    intro pivot rest hcom hhead hchain hstop
    have hc : c.kind = "comment" := hcom c (List.mem_cons_self _ _)
    have hp : pivot - (c.span.endRow : Int) ≤ 1 := hhead c rfl
    show collectAux pivot (c :: (cs ++ rest)) = c :: cs
    unfold collectAux
    rw [if_pos ⟨hc, hp⟩]
    rw [List.chain'_cons'] at hchain
    congr 1
    apply ih
    · intro x hx
      exact hcom x (List.mem_cons_of_mem _ hx)
    · intro x hx
      exact hchain.1 x (by simp [hx])
    · exact hchain.2
    · intro r hr hrc
      rw [← lastStart_cons pivot c cs]
      exact hstop r hr hrc

/-- `collect_sibling_comment_nodes` on a maximal block of comments with zero
intervening blank lines collects exactly that block. -/
theorem collect_comment_chain (chain rest : List Node)
    (hne : chain ≠ [])
    (hcom : ∀ c ∈ chain, c.kind = "comment")
    (hwf : ∀ c ∈ chain, c.span.startRow ≤ c.span.endRow)
    (hadj : chain.Chain' (fun a b => a.span.startRow = b.span.endRow + 1))
    (hstop : ∀ r cl, rest.head? = some r → chain.getLast? = some cl →
      r.kind = "comment" → (cl.span.startRow : Int) - (r.span.endRow : Int) > 1) :
    collect_sibling_comment_nodes (chain ++ rest) = chain := by
  obtain ⟨c, cs, rfl⟩ := List.exists_cons_of_ne_nil hne
  show collectAux (c.span.startRow : Int) ((c :: cs) ++ rest) = c :: cs
  apply collectAux_chain
  · exact hcom
  · intro x hx
    have hxc : c = x := by injection hx
    rw [← hxc]
    have := hwf c (List.mem_cons_self _ _)
    omega
  · exact hadj.imp (fun h => by omega)
  · intro r hr hrc
    cases hcl : (c :: cs).getLast? with
    | none => simp at hcl
    | some cl =>
      rw [lastStart_eq_getLast _ _ cl hcl]
      have := hstop r cl hr hcl hrc
      omega

theorem foldl_text_append (xs : List Node) : ∀ acc : String,
    xs.foldl (fun a c => a ++ c.text ++ "\n") acc =
      acc ++ xs.foldl (fun a c => a ++ c.text ++ "\n") "" := by
  induction xs with
  | nil => intro acc; exact (String.append_empty acc).symm
  | cons x xs ih =>
    intro acc
    show xs.foldl _ (acc ++ x.text ++ "\n") =
      acc ++ xs.foldl _ ("" ++ x.text ++ "\n")
    rw [ih (acc ++ x.text ++ "\n"), ih ("" ++ x.text ++ "\n")]
    have h1 : ("" ++ x.text ++ "\n") = x.text ++ "\n" := rfl
    rw [h1]
    simp [String.append_assoc]

theorem string_join_cons (a : String) (l : List String) :
    String.join (a :: l) = a ++ String.join l := by
  show l.foldl (fun r s => r ++ s) ("" ++ a) = a ++ l.foldl (fun r s => r ++ s) ""
  have h0 : ∀ (m : List String) (acc : String),
      m.foldl (fun r s => r ++ s) acc = acc ++ m.foldl (fun r s => r ++ s) "" := by
    intro m
    induction m with
    | nil => intro acc; exact (String.append_empty acc).symm
    | cons y ys ih =>
      intro acc
      show ys.foldl _ (acc ++ y) = acc ++ ys.foldl _ ("" ++ y)
      rw [ih (acc ++ y), ih ("" ++ y)]
      have h1 : ("" ++ y) = y := rfl
      rw [h1, String.append_assoc]
  rw [h0 l ("" ++ a)]
  rfl

/-- The `rfold` comment concatenation is the join of the texts in
top-to-bottom source order, each followed by a newline. -/
theorem commentsText_eq_join (l : List Node) :
    commentsText l = String.join (l.reverse.map (fun c => c.text ++ "\n")) := by
  unfold commentsText
  generalize l.reverse = m
  induction m with
  | nil => rfl
  | cons x xs ih =>
    show xs.foldl _ ("" ++ x.text ++ "\n") = String.join ((x.text ++ "\n") :: xs.map _)
    rw [string_join_cons, foldl_text_append, ← ih]
    rfl

/-- C7: for a function definition preceded by a maximal block of one or more
comment siblings with zero intervening blank lines, the extracted
description is exactly those comment texts in top-to-bottom source order,
each on its own line, followed by the signature text. -/
theorem function_description_begins_with_comments
    (l : Loc) (chain rest : List Node) (sigN nameN : Node)
    (hps : l.prevSibs = chain ++ rest)
    (hne : chain ≠ [])
    (hcom : ∀ c ∈ chain, c.kind = "comment")
    (hwf : ∀ c ∈ chain, c.span.startRow ≤ c.span.endRow)
    (hadj : chain.Chain' (fun a b => a.span.startRow = b.span.endRow + 1))
    (hstop : ∀ r cl, rest.head? = some r → chain.getLast? = some cl →
      r.kind = "comment" → (cl.span.startRow : Int) - (r.span.endRow : Int) > 1)
    (hsig : l.node.childByFieldName "signature" = some sigN)
    (hname : sigN.childByFieldName "name" = some nameN) :
    ∃ fs, FunctionSymbol.from_node l = .ok fs ∧
      fs.description =
        String.join (chain.reverse.map (fun c => c.text ++ "\n")) ++ sigN.text := by
  unfold FunctionSymbol.from_node
  split
  next h => rw [hsig] at h; cases h
  next sigNode h =>
  have hsg : sigNode = sigN := by rw [h] at hsig; injection hsig
  subst hsg
  split
  next h2 => rw [hname] at h2; cases h2
  next nameNode h2 =>
  refine ⟨_, rfl, ?_⟩
  show ((l.prevSibs.head?.map (fun _ =>
      commentsText (collect_sibling_comment_nodes l.prevSibs))).getD "")
      ++ sigNode.text =
    String.join (chain.reverse.map (fun c => c.text ++ "\n")) ++ sigNode.text
  rw [hps]
  rw [collect_comment_chain chain rest hne hcom hwf hadj hstop]
  obtain ⟨c, cs, rfl⟩ := List.exists_cons_of_ne_nil hne
  rw [List.cons_append, List.head?_cons]
  rw [commentsText_eq_join]
  rfl

def cTop : Node := .mk "comment" true none ⟨0,0,0,8⟩ "// top" []
def cBot : Node := .mk "comment" true none ⟨1,0,1,8⟩ "// bot" []
def identW : Node := .mk "identifier" true (some "name") ⟨2,3,2,4⟩ "f" []
def sigW : Node :=
  .mk "function_signature" true (some "signature") ⟨2,0,2,7⟩ "fn f(a)" [identW]
def fnW : Node := .mk "function_definition" true none ⟨2,0,3,0⟩ "fn f(a) x" [sigW]
def locW : Loc :=
  ⟨fnW, [cBot, cTop], [.mk "module" true none ⟨0,0,4,0⟩ "" []]⟩

theorem function_description_begins_with_comments_witness :
    ∃ fs, FunctionSymbol.from_node locW = .ok fs ∧
      fs.description =
        String.join ([cBot, cTop].reverse.map (fun c => c.text ++ "\n")) ++
          sigW.text :=
  function_description_begins_with_comments locW [cBot, cTop] [] sigW identW
    rfl (List.cons_ne_nil _ _)
    (by intro c hc; fin_cases hc <;> rfl)
    (by intro c hc; fin_cases hc <;> decide)
    (by rw [List.chain'_cons]; exact ⟨by decide, List.chain'_singleton _⟩)
    (by intro r cl hr; simp at hr)
    rfl rfl

/-! ### C9: per-table uniqueness and last-write-wins -/

/-- One symbol definition as encountered in document order. -/
inductive SymDef where
  | fnD (name : String) (s : FunctionSymbol)
  | varD (name : String) (s : VariableSymbol)
  deriving DecidableEq, Repr

/-- Apply one definition to the table, as `traverse_tree` does: a map insert
that silently replaces any previous binding of the name. -/
def applyDef (st : SymbolTable) : SymDef → SymbolTable
  | .fnD n s => { st with functions := insertS st.functions n s }
  | .varD n s => { st with global_variables := insertS st.global_variables n s }

/-- The definitions contributed by one visited node (none, or exactly one) —
the per-node effect of `traverse_tree` separated from the table. -/
def extractLoc (l : Loc) : Except String (List SymDef) :=
  if l.node.named then
    match l.node.kind with
    | "function_definition" | "asm_function_definition" =>
      (FunctionSymbol.from_node l).map (fun s => [.fnD s.name s])
    | "variable_definition" =>
      match l.ancestors.head? with
      | some parent =>
        if parent.kind = "module" ∨ parent.kind = "vars_definition" then
          (VariableSymbol.from_node l).map (fun s => [.varD s.name s])
        else .ok []
      | none => .ok []
    | _ => .ok []
  else .ok []

theorem processLoc_eq_extract (st : SymbolTable) (l : Loc) :
    processLoc st l = (extractLoc l).map (fun ds => ds.foldl applyDef st) := by
  unfold processLoc extractLoc
  split
  · split
    · cases hfn : FunctionSymbol.from_node l <;>
        simp [hfn, Except.map, applyDef]
    · cases hfn : FunctionSymbol.from_node l <;>
        simp [hfn, Except.map, applyDef]
    · split
      · split
        · cases hv : VariableSymbol.from_node l <;>
            simp [hv, Except.map, applyDef]
        · rfl
      · rfl
    · rfl
  · rfl

theorem foldlM_processLoc (locs : List Loc) : ∀ st0 : SymbolTable,
    locs.foldlM processLoc st0 =
      (locs.mapM extractLoc).map (fun dss => dss.flatten.foldl applyDef st0) := by
  induction locs with
  | nil => intro st0; rfl
  | cons l ls ih =>
    intro st0
    rw [List.foldlM_cons, List.mapM_cons, processLoc_eq_extract]
    cases he : extractLoc l with
    | error e => simp [Except.map, Except.bind, bind]
    | ok ds =>
      simp only [Except.map, Except.bind, bind]
      rw [ih (ds.foldl applyDef st0)]
      cases hm : ls.mapM extractLoc with
      | error e => simp [Except.map, Except.bind, bind]
      | ok dss =>
        simp [Except.map, Except.bind, bind, pure, Except.pure,
          List.flatten, List.foldl_append]

/-- The function symbol a definition contributes under a given name. -/
def fnMatch (n : String) : SymDef → Option FunctionSymbol
  | .fnD m s => if m = n then some s else none
  | .varD _ _ => none

/-- The variable symbol a definition contributes under a given name. -/
def varMatch (n : String) : SymDef → Option VariableSymbol
  | .varD m s => if m = n then some s else none
  | .fnD _ _ => none

theorem lookup_applyDef_fn (st : SymbolTable) (d : SymDef) (n : String) :
    lookupS (applyDef st d).functions n =
      (fnMatch n d).or (lookupS st.functions n) := by
  cases d with
  | fnD m s =>
    by_cases h : m = n
    · subst h
      simp [applyDef, fnMatch, lookupS_insertS_self, Option.or]
    · simp [applyDef, fnMatch, h, Option.or,
        lookupS_insertS_ne st.functions m n s (fun hh => h hh.symm)]
  | varD m s => simp [applyDef, fnMatch, Option.or]

theorem lookup_applyDef_var (st : SymbolTable) (d : SymDef) (n : String) :
    lookupS (applyDef st d).global_variables n =
      (varMatch n d).or (lookupS st.global_variables n) := by
  cases d with
  | varD m s =>
    by_cases h : m = n
    · subst h
      simp [applyDef, varMatch, lookupS_insertS_self, Option.or]
    · simp [applyDef, varMatch, h, Option.or,
        lookupS_insertS_ne st.global_variables m n s (fun hh => h hh.symm)]
  | fnD m s => simp [applyDef, varMatch, Option.or]

theorem findSome?_singleton {α β : Type} (d : α) (f : α → Option β) :
    [d].findSome? f = f d := by
  cases h : f d <;> simp [List.findSome?, h]

theorem foldl_applyDef_lookup_fn (defs : List SymDef) :
    ∀ (st0 : SymbolTable) (n : String),
    lookupS (defs.foldl applyDef st0).functions n =
      (defs.reverse.findSome? (fnMatch n)).or (lookupS st0.functions n) := by
  induction defs with
  | nil => intro st0 n; simp [Option.or]
  | cons d ds ih =>
    intro st0 n
    show lookupS ((ds.foldl applyDef (applyDef st0 d)).functions) n = _
    rw [ih (applyDef st0 d) n, lookup_applyDef_fn, List.reverse_cons,
      List.findSome?_append, findSome?_singleton, Option.or_assoc]

theorem foldl_applyDef_lookup_var (defs : List SymDef) :
    ∀ (st0 : SymbolTable) (n : String),
    lookupS (defs.foldl applyDef st0).global_variables n =
      (defs.reverse.findSome? (varMatch n)).or (lookupS st0.global_variables n) := by
  induction defs with
  | nil => intro st0 n; simp [Option.or]
  | cons d ds ih =>
    intro st0 n
    show lookupS ((ds.foldl applyDef (applyDef st0 d)).global_variables) n = _
    rw [ih (applyDef st0 d) n, lookup_applyDef_var, List.reverse_cons,
      List.findSome?_append, findSome?_singleton, Option.or_assoc]

theorem insertS_keys_nodup {α : Type} (m : List (String × α)) (k : String)
    (v : α) (h : (m.map Prod.fst).Nodup) :
    ((insertS m k v).map Prod.fst).Nodup := by
  simp only [insertS, List.map_cons, List.nodup_cons]
  constructor
  · intro hk
    rw [List.mem_map] at hk
    obtain ⟨p, hp, hpk⟩ := hk
    rw [List.mem_filter] at hp
    have h2 := hp.2
    simp only [decide_eq_true_eq, ne_eq] at h2
    exact h2 hpk
  · exact List.Nodup.sublist (List.Sublist.map Prod.fst (List.filter_sublist m)) h

theorem foldl_applyDef_nodup (defs : List SymDef) : ∀ st0 : SymbolTable,
    (st0.functions.map Prod.fst).Nodup →
    (st0.global_variables.map Prod.fst).Nodup →
    (((defs.foldl applyDef st0).functions.map Prod.fst).Nodup ∧
      ((defs.foldl applyDef st0).global_variables.map Prod.fst).Nodup) := by
  induction defs with
  | nil => intro st0 h1 h2; exact ⟨h1, h2⟩
  | cons d ds ih =>
    intro st0 h1 h2
    cases d with
    | fnD m s => exact ih _ (insertS_keys_nodup _ _ _ h1) h2
    | varD m s => exact ih _ h1 (insertS_keys_nodup _ _ _ h2)

/-- All symbol definitions of a tree in document order; defined exactly when
whole-file extraction succeeds. -/
def docOrderDefs (root : Node) : Except String (List SymDef) :=
  ((preorder [] [] root).mapM extractLoc).map List.flatten

/-- C9: on successful extraction each name maps to at most one function and
at most one global variable, and the binding of every name is the one from
the last definition of that name in document order, with no diagnostic. -/
theorem symbol_table_unique_last_wins (root : Node) (st : SymbolTable)
    (h : traverse_tree root = .ok st) :
    ∃ defs, docOrderDefs root = .ok defs ∧
      (st.functions.map Prod.fst).Nodup ∧
      (st.global_variables.map Prod.fst).Nodup ∧
      (∀ n, lookupS st.functions n = defs.reverse.findSome? (fnMatch n)) ∧
      (∀ n, lookupS st.global_variables n = defs.reverse.findSome? (varMatch n)) := by
  unfold traverse_tree at h
  rw [foldlM_processLoc] at h
  cases hm : (preorder [] [] root).mapM extractLoc with
  | error e => rw [hm] at h; cases h
  | ok dss =>
    rw [hm] at h
    simp only [Except.map] at h
    injection h with h
    refine ⟨dss.flatten, ?_, ?_, ?_, ?_, ?_⟩
    · unfold docOrderDefs
      rw [hm]
      rfl
    · rw [← h]
      exact (foldl_applyDef_nodup dss.flatten SymbolTable.default
        (by simp [SymbolTable.default]) (by simp [SymbolTable.default])).1
    · rw [← h]
      exact (foldl_applyDef_nodup dss.flatten SymbolTable.default
        (by simp [SymbolTable.default]) (by simp [SymbolTable.default])).2
    · intro n
      rw [← h, foldl_applyDef_lookup_fn]
      show (List.findSome? (fnMatch n) dss.flatten.reverse).or none =
        List.findSome? (fnMatch n) dss.flatten.reverse
      exact Option.or_none
    · intro n
      rw [← h, foldl_applyDef_lookup_var]
      show (List.findSome? (varMatch n) dss.flatten.reverse).or none =
        List.findSome? (varMatch n) dss.flatten.reverse
      exact Option.or_none

def sigD1 : Node :=
  .mk "function_signature" true (some "signature") ⟨0,0,0,7⟩ "fn f(a)"
    [.mk "identifier" true (some "name") ⟨0,3,0,4⟩ "f" []]
def fnD1 : Node := .mk "function_definition" true none ⟨0,0,1,0⟩ "fn f(a) one" [sigD1]
def sigD2 : Node :=
  .mk "function_signature" true (some "signature") ⟨2,0,2,7⟩ "fn f(b)"
    [.mk "identifier" true (some "name") ⟨2,3,2,4⟩ "f" []]
def fnD2 : Node := .mk "function_definition" true none ⟨2,0,3,0⟩ "fn f(b) two" [sigD2]
def rootDup : Node := .mk "module" true none ⟨0,0,4,0⟩ "" [fnD1, fnD2]

def fsymD2 : FunctionSymbol :=
  { range := ⟨⟨2,0⟩,⟨3,0⟩⟩, description := "fn f(b)", name := "f",
    signature := "fn f(b)", comments := some "" }

def stDup : SymbolTable := ⟨[("f", fsymD2)], []⟩

theorem symbol_table_unique_last_wins_witness :
    ∃ defs, docOrderDefs rootDup = .ok defs ∧
      (stDup.functions.map Prod.fst).Nodup ∧
      (stDup.global_variables.map Prod.fst).Nodup ∧
      (∀ n, lookupS stDup.functions n = defs.reverse.findSome? (fnMatch n)) ∧
      (∀ n, lookupS stDup.global_variables n = defs.reverse.findSome? (varMatch n)) :=
  symbol_table_unique_last_wins rootDup stDup rfl
